import Mathlib

set_option linter.unusedVariables false

/-!
Shallow embedding of the `cargo upgrade` binary
(`src/bin/upgrade/main.rs` of cargo-edit): the eligibility filter
`is_version_dependency`, the two single-manifest updaters
(`update_manifest`, `update_manifest_from_cache`), the two version-cache
constructors (`get_all_new_deps`, `get_specified_new_deps`), workspace
discovery (`get_workspace_manifests`) and the workspace coordinator
(`update_workspace_manifests`).

The collaborators that live outside this binary (`cargo_edit::Manifest`,
`cargo_edit::get_latest_dependency`, `cargo_metadata`) are modelled from
the spec as an environment of pure functions (`Env`) plus an explicit
file-system state with a write log (`World`).  Registry lookups are traced:
every function that performs lookups returns the ordered list of names it
looked up, so that lookup-counting properties can be stated.
-/

/-- A resolved dependency as returned by the registry lookup
(`cargo_edit::Dependency`): a crate name together with its latest
version requirement. -/
structure Dependency where
  name : String
  version : String
deriving DecidableEq

/-- A TOML value as far as the upgrade logic inspects it: either a bare
scalar (as in `serde = "1.0"`) or a structured table of attributes
(as in a table with `git`, `path` or `version` keys). -/
inductive Toml where
  | scalar : String → Toml
  | table : List (String × String) → Toml
deriving DecidableEq

/-- `toml::Value::as_table`: the table view of a value, when it is one. -/
def Toml.as_table : Toml → Option (List (String × String))
  | .table t => some t
  | .scalar _ => none

/-- `toml::value::Table::contains_key` on the modelled attribute table. -/
def contains_key (t : List (String × String)) (k : String) : Bool :=
  t.any (fun kv => kv.1 == k)

/-- `is_version_dependency` (main.rs lines 76-82): a dependency value is a
registry (version) dependency iff it is not a table carrying a `git` or
`path` key. -/
def is_version_dependency (dep : Toml) : Bool :=
  match dep.as_table with
  | some table => !(contains_key table "git") && !(contains_key table "path")
  | none => true

/-- Modelled from the spec: `cargo_edit::Manifest`, the opaque structured
document — an ordered sequence of dependency sections, each an ordered
mapping from dependency name to raw TOML value. -/
structure Manifest where
  sections : List (String × List (String × Toml))
deriving DecidableEq

/-- Modelled from the spec: `Manifest::get_sections`, the ordered
enumeration of `(table_path, table)` pairs. -/
def Manifest.get_sections (m : Manifest) : List (String × List (String × Toml)) :=
  m.sections

/-- Modelled from the spec: `Manifest::update_table_entry` writes the
resolved specifier into the entry named after the new dependency inside
the given table, preserving every other entry and section unchanged. -/
def Manifest.update_table_entry (m : Manifest) (table_path : String) (dep : Dependency) :
    Manifest :=
  ⟨m.sections.map (fun sec =>
    if sec.1 = table_path then
      (sec.1, sec.2.map (fun kv =>
        if kv.1 = dep.name then (kv.1, Toml.scalar dep.version) else kv))
    else sec)⟩

/-- Modelled from the spec: a workspace package as reported by
`cargo_metadata` — its manifest path and the names of its direct
dependencies. -/
structure Package where
  manifest_path : String
  dependencies : List String
deriving DecidableEq

/-- Modelled from the spec: the external collaborators of the core —
the registry lookup `get_latest_dependency` (name and prerelease flag to
latest dependency or error), workspace discovery via `cargo_metadata`,
and whether writing a given manifest path succeeds. -/
structure Env where
  registry : String → Bool → Except String Dependency
  metadata : Option String → Except String (List Package)
  writeOk : String → Bool

/-- The observable file-system state: manifest contents per path, plus the
ordered log of paths written back (so that "the file was rewritten" is an
observable event even when the content is unchanged). -/
structure World where
  fs : List (String × Manifest)
  writeLog : List String
deriving DecidableEq

/-- Modelled from the spec: `Manifest::find_file` resolves the default
manifest location when no explicit path is given. -/
def find_file (p : Option String) : String := p.getD "Cargo.toml"

/-- Reading a manifest from the modelled file system. -/
def fsGet : List (String × Manifest) → String → Option Manifest
  | [], _ => none
  | e :: rest, path => if e.1 = path then some e.2 else fsGet rest path

/-- Writing a manifest into the modelled file system. -/
def fsSet : List (String × Manifest) → String → Manifest → List (String × Manifest)
  | [], path, m => [(path, m)]
  | e :: rest, path, m => if e.1 = path then (path, m) :: rest else e :: fsSet rest path m

/-- Modelled from the spec: `Manifest::write_to_file` — serialize the
manifest back to its path and record the write event. -/
def writeF (w : World) (path : String) (m : Manifest) : World :=
  ⟨fsSet w.fs path m, w.writeLog ++ [path]⟩

/-- The entry filter both updaters apply (main.rs lines 94-96 and 120-122):
the entry passes when the selector is empty or contains its name, and the
value is a registry dependency. -/
def upgradeFilter (only_update : List String) (name : String) (old_value : Toml) : Bool :=
  (only_update.isEmpty || only_update.contains name) && is_version_dependency old_value

/-- Whether an `Except` is a success. -/
def isOkB : Except String α → Bool
  | .ok _ => true
  | .error _ => false

/-- The inner loop of `update_manifest` (main.rs lines 93-101) over one
section's entries: each passing entry triggers a fresh registry lookup and
an in-place table update.  Returns the lookup trace with the result. -/
def processTable (env : Env) (allow_prerelease : Bool) (only_update : List String)
    (table_path : String) : List (String × Toml) → Manifest →
    List String × Except String Manifest
  | [], m => ([], .ok m)
  | (name, old_value) :: rest, m =>
    if upgradeFilter only_update name old_value then
      match env.registry name allow_prerelease with
      | .error e => ([name], .error e)
      | .ok latest_version =>
        let r := processTable env allow_prerelease only_update table_path rest
          (m.update_table_entry table_path latest_version)
        (name :: r.1, r.2)
    else processTable env allow_prerelease only_update table_path rest m

/-- The outer loop of `update_manifest` (main.rs line 92) over the
sections snapshot. -/
def processSections (env : Env) (allow_prerelease : Bool) (only_update : List String) :
    List (String × List (String × Toml)) → Manifest →
    List String × Except String Manifest
  | [], m => ([], .ok m)
  | (table_path, table) :: rest, m =>
    match processTable env allow_prerelease only_update table_path table m with
    | (tr, .error e) => (tr, .error e)
    | (tr, .ok m2) =>
      let r := processSections env allow_prerelease only_update rest m2
      (tr ++ r.1, r.2)

/-- `update_manifest` (main.rs lines 84-108): open the manifest, traverse
every section resolving each passing entry by a fresh registry lookup,
then write the manifest back. -/
def update_manifest (env : Env) (w : World) (manifest_path : Option String)
    (only_update : List String) (allow_prerelease : Bool) :
    List String × World × Option String :=
  match fsGet w.fs (find_file manifest_path) with
  | none => ([], w, some "failed to open manifest")
  | some manifest =>
    match processSections env allow_prerelease only_update manifest.get_sections manifest with
    | (tr, .error e) => (tr, w, some e)
    | (tr, .ok m2) =>
      if env.writeOk (find_file manifest_path) then
        (tr, writeF w (find_file manifest_path) m2, none)
      else (tr, w, some "failed to write manifest")

/-- The version cache (`HashMap<String, Dependency>`), modelled as an
association list with at most one entry per key. -/
abbrev Cache := List (String × Dependency)

/-- `HashMap::get` / indexing on the modelled cache. -/
def cacheGet : Cache → String → Option Dependency
  | [], _ => none
  | kv :: rest, name => if kv.1 = name then some kv.2 else cacheGet rest name

/-- `HashMap::insert` on the modelled cache: overwrite the entry for the
key when present, append otherwise. -/
def cacheInsert : Cache → String → Dependency → Cache
  | [], name, dep => [(name, dep)]
  | kv :: rest, name, dep =>
    if kv.1 = name then (name, dep) :: rest else kv :: cacheInsert rest name dep

/-- The inner loop of `update_manifest_from_cache` (main.rs lines 119-127):
identical traversal and filter, but the specifier is read from the cache.
The absent-key case is the `HashMap` indexing fault of line 123, modelled
from the spec as an internal-consistency failure. -/
def processTableCache (only_update : List String) (new_deps : Cache)
    (table_path : String) : List (String × Toml) → Manifest → Except String Manifest
  | [], m => .ok m
  | (name, old_value) :: rest, m =>
    if upgradeFilter only_update name old_value then
      match cacheGet new_deps name with
      | none => .error "no entry found for key"
      | some latest_version =>
        processTableCache only_update new_deps table_path rest
          (m.update_table_entry table_path latest_version)
    else processTableCache only_update new_deps table_path rest m

/-- The outer loop of `update_manifest_from_cache` (main.rs line 118). -/
def processSectionsCache (only_update : List String) (new_deps : Cache) :
    List (String × List (String × Toml)) → Manifest → Except String Manifest
  | [], m => .ok m
  | (table_path, table) :: rest, m =>
    match processTableCache only_update new_deps table_path table m with
    | .error e => .error e
    | .ok m2 => processSectionsCache only_update new_deps rest m2

/-- `update_manifest_from_cache` (main.rs lines 110-134): same traversal as
`update_manifest`, with the specifier read from the precomputed cache. -/
def update_manifest_from_cache (env : Env) (w : World) (manifest_path : Option String)
    (only_update : List String) (new_deps : Cache) : World × Option String :=
  match fsGet w.fs (find_file manifest_path) with
  | none => (w, some "failed to open manifest")
  | some manifest =>
    match processSectionsCache only_update new_deps manifest.get_sections manifest with
    | .error e => (w, some e)
    | .ok m2 =>
      if env.writeOk (find_file manifest_path) then
        (writeF w (find_file manifest_path) m2, none)
      else (w, some "Failed to write new manifest contents")

/-- `get_workspace_manifests` (main.rs lines 137-146): the manifest paths
of every package in the workspace. -/
def get_workspace_manifests (env : Env) (manifest_path : Option String) :
    Except String (List String) :=
  match env.metadata manifest_path with
  | .error _ => .error "Failed to get metadata"
  | .ok pkgs => .ok (pkgs.map (·.manifest_path))

/-- The accumulation loop of `get_all_new_deps` (main.rs lines 161-170):
walk the flattened dependency names, looking a name up only when it is not
yet in the cache; the first lookup failure aborts. -/
def buildCache (env : Env) (allow_prerelease : Bool) :
    List String → Cache → List String × Except String Cache
  | [], acc => ([], .ok acc)
  | name :: rest, acc =>
    if (cacheGet acc name).isSome then buildCache env allow_prerelease rest acc
    else
      match env.registry name allow_prerelease with
      | .error e => ([name], .error e)
      | .ok dep =>
        let r := buildCache env allow_prerelease rest (cacheInsert acc name dep)
        (name :: r.1, r.2)

/-- `get_all_new_deps` (main.rs lines 150-173): full-workspace cache
construction over the flattened direct dependencies of every package. -/
def get_all_new_deps (env : Env) (manifest_path : Option String)
    (allow_prerelease : Bool) : List String × Except String Cache :=
  match env.metadata manifest_path with
  | .error _ => ([], .error "Failed to get metadata")
  | .ok pkgs => buildCache env allow_prerelease ((pkgs.map (·.dependencies)).flatten) []

/-- `get_specified_new_deps` (main.rs lines 176-189): explicit-selector
cache construction — one lookup per selector element, collected into the
cache; the first lookup failure aborts. -/
def get_specified_new_deps (env : Env) (allow_prerelease : Bool) :
    List String → Cache → List String × Except String Cache
  | [], acc => ([], .ok acc)
  | dep :: rest, acc =>
    match env.registry dep allow_prerelease with
    | .error e => ([dep], .error e)
    | .ok latest =>
      let r := get_specified_new_deps env allow_prerelease rest (cacheInsert acc dep latest)
      (dep :: r.1, r.2)

/-- The per-manifest loop of `update_workspace_manifests`
(main.rs lines 202-208): update each manifest from the shared cache,
aborting on the first failure. -/
def wsLoop (env : Env) (only_update : List String) (new_deps : Cache) :
    World → List String → World × Option String
  | w, [] => (w, none)
  | w, path :: rest =>
    match update_manifest_from_cache env w (some path) only_update new_deps with
    | (w2, some e) => (w2, some e)
    | (w2, none) => wsLoop env only_update new_deps w2 rest

/-- `update_workspace_manifests` (main.rs lines 191-209): build the shared
cache (explicit-selector mode when the selector is non-empty,
full-workspace mode otherwise), then drive the cached updater over every
workspace manifest. -/
def update_workspace_manifests (env : Env) (w : World) (manifest_path : Option String)
    (only_update : List String) (allow_prerelease : Bool) :
    List String × World × Option String :=
  match (if !only_update.isEmpty
      then get_specified_new_deps env allow_prerelease only_update []
      else get_all_new_deps env manifest_path allow_prerelease) with
  | (tr, .error e) => (tr, w, some e)
  | (tr, .ok new_deps) =>
    match get_workspace_manifests env manifest_path with
    | .error e => (tr, w, some e)
    | .ok manifests =>
      let r := wsLoop env only_update new_deps w manifests
      (tr, r.1, r.2)

/-! ### Basic cache lemmas -/

theorem cacheGet_insert_self (c : Cache) (k : String) (d : Dependency) :
    cacheGet (cacheInsert c k d) k = some d := by
  induction c with
  | nil => simp [cacheInsert, cacheGet]
  | cons kv rest ih =>
    by_cases h : kv.1 = k
    · simp [cacheInsert, h, cacheGet]
    · simp [cacheInsert, h, cacheGet, ih]

theorem cacheGet_insert_ne (c : Cache) (k : String) (d : Dependency) (n : String)
    (hne : k ≠ n) : cacheGet (cacheInsert c k d) n = cacheGet c n := by
  induction c with
  | nil => simp [cacheInsert, cacheGet, hne]
  | cons kv rest ih =>
    by_cases h : kv.1 = k
    · simp [cacheInsert, h, cacheGet, hne]
    · simp [cacheInsert, h, cacheGet, ih]

theorem cacheGet_insert_isSome (c : Cache) (k : String) (d : Dependency) (n : String)
    (h : (cacheGet c n).isSome = true ∨ k = n) :
    (cacheGet (cacheInsert c k d) n).isSome = true := by
  by_cases hk : k = n
  · subst hk; simp [cacheGet_insert_self]
  · rcases h with h | h
    · rw [cacheGet_insert_ne c k d n hk]; exact h
    · exact absurd h hk

/-! ### C2 : the eligibility filter -/

/-- C2: `is_version_dependency` returns eligible iff the value is a bare
scalar or a table containing neither a `git` key nor a `path` key; other
attributes never disqualify, and the predicate is a pure function. -/
theorem c2_eligibility (dep : Toml) :
    is_version_dependency dep = true ↔
      ∀ t, dep = Toml.table t →
        contains_key t "git" = false ∧ contains_key t "path" = false := by
  cases dep with
  | scalar s => simp [is_version_dependency, Toml.as_table]
  | table t => simp [is_version_dependency, Toml.as_table]

/-- Witness for C2 at a concrete bare-scalar dependency value. -/
theorem c2_eligibility_witness :
    is_version_dependency (Toml.scalar "1.0") = true :=
  (c2_eligibility (Toml.scalar "1.0")).mpr (fun t h => Toml.noConfusion h)

/-! ### Direct/cached traversal equivalence -/

theorem processTable_cache_eq (env : Env) (pre : Bool) (sel : List String) (c : Cache)
    (tp : String) (es : List (String × Toml)) : ∀ (m : Manifest),
    (∀ n v, (n, v) ∈ es → upgradeFilter sel n v = true →
      ∃ d, env.registry n pre = .ok d ∧ cacheGet c n = some d) →
    (processTable env pre sel tp es m).2 = processTableCache sel c tp es m := by
  induction es with
  | nil => intro m h; rfl
  | cons nv rest ih =>
    intro m h
    obtain ⟨n, v⟩ := nv
    by_cases hf : upgradeFilter sel n v = true
    · obtain ⟨d, hr, hc⟩ := h n v (List.mem_cons_self _ _) hf
      simp only [processTable, processTableCache, hf, hr, hc, if_pos]
      exact ih _ (fun n' v' hm hfil => h n' v' (List.mem_cons_of_mem _ hm) hfil)
    · simp only [processTable, processTableCache, hf, if_neg, Bool.false_eq_true,
        not_false_eq_true]
      exact ih m (fun n' v' hm hfil => h n' v' (List.mem_cons_of_mem _ hm) hfil)

theorem processSections_cache_eq (env : Env) (pre : Bool) (sel : List String) (c : Cache)
    (secs : List (String × List (String × Toml))) : ∀ (m : Manifest),
    (∀ tp es n v, (tp, es) ∈ secs → (n, v) ∈ es → upgradeFilter sel n v = true →
      ∃ d, env.registry n pre = .ok d ∧ cacheGet c n = some d) →
    (processSections env pre sel secs m).2 = processSectionsCache sel c secs m := by
  induction secs with
  | nil => intro m h; rfl
  | cons sec rest ih =>
    intro m h
    obtain ⟨tp, es⟩ := sec
    have htbl := processTable_cache_eq env pre sel c tp es m
      (fun n v hm hf => h tp es n v (List.mem_cons_self _ _) hm hf)
    rcases hpt : processTable env pre sel tp es m with ⟨tr, r⟩
    have hcc : processTableCache sel c tp es m = r := by
      rw [← htbl, hpt]
    cases r with
    | error e => simp [processSections, processSectionsCache, hpt, hcc]
    | ok m2 =>
      simp only [processSections, processSectionsCache, hpt, hcc]
      exact ih m2 (fun tp' es' n v hm => h tp' es' n v (List.mem_cons_of_mem _ hm))

/-! ### Explicit-selector cache construction lemmas -/

theorem get_specified_consistent (env : Env) (pre : Bool) :
    ∀ (sel : List String) (acc : Cache) (tr : List String) (c : Cache),
    (∀ k d, cacheGet acc k = some d → env.registry k pre = .ok d) →
    get_specified_new_deps env pre sel acc = (tr, .ok c) →
    ∀ k d, cacheGet c k = some d → env.registry k pre = .ok d := by
  intro sel
  induction sel with
  | nil =>
    intro acc tr c hacc heq
    simp only [get_specified_new_deps, Prod.mk.injEq] at heq
    obtain ⟨-, heq⟩ := heq
    cases heq
    exact hacc
  | cons s rest ih =>
    intro acc tr c hacc heq
    cases hreg : env.registry s pre with
    | error e => simp [get_specified_new_deps, hreg] at heq
    | ok d =>
      simp only [get_specified_new_deps, hreg] at heq
      rcases hrec : get_specified_new_deps env pre rest (cacheInsert acc s d) with ⟨tr', r2⟩
      rw [hrec] at heq
      simp only [Prod.mk.injEq] at heq
      obtain ⟨-, heq2⟩ := heq
      refine ih (cacheInsert acc s d) tr' c ?_ (by rw [hrec, heq2])
      intro k d' hk
      by_cases hks : s = k
      · subst hks
        rw [cacheGet_insert_self] at hk
        cases hk
        exact hreg
      · rw [cacheGet_insert_ne _ _ _ _ hks] at hk
        exact hacc k d' hk

theorem get_specified_domain (env : Env) (pre : Bool) :
    ∀ (sel : List String) (acc : Cache) (tr : List String) (c : Cache),
    get_specified_new_deps env pre sel acc = (tr, .ok c) →
    ∀ n, (n ∈ sel ∨ (cacheGet acc n).isSome = true) → (cacheGet c n).isSome = true := by
  intro sel
  induction sel with
  | nil =>
    intro acc tr c heq n hn
    simp only [get_specified_new_deps, Prod.mk.injEq] at heq
    obtain ⟨-, heq⟩ := heq
    cases heq
    rcases hn with hn | hn
    · cases hn
    · exact hn
  | cons s rest ih =>
    intro acc tr c heq n hn
    cases hreg : env.registry s pre with
    | error e => simp [get_specified_new_deps, hreg] at heq
    | ok d =>
      simp only [get_specified_new_deps, hreg] at heq
      rcases hrec : get_specified_new_deps env pre rest (cacheInsert acc s d) with ⟨tr', r2⟩
      rw [hrec] at heq
      simp only [Prod.mk.injEq] at heq
      obtain ⟨-, heq2⟩ := heq
      refine ih (cacheInsert acc s d) tr' c (by rw [hrec, heq2]) n ?_
      rcases hn with hn | hn
      · rcases List.mem_cons.mp hn with hn | hn
        · exact Or.inr (cacheGet_insert_isSome _ _ _ _ (Or.inr hn.symm))
        · exact Or.inl hn
      · exact Or.inr (cacheGet_insert_isSome _ _ _ _ (Or.inl hn))

theorem mem_of_upgradeFilter (sel : List String) (n : String) (v : Toml)
    (hsel : sel.isEmpty = false) (hf : upgradeFilter sel n v = true) : n ∈ sel := by
  simp only [upgradeFilter, Bool.and_eq_true, Bool.or_eq_true] at hf
  rcases hf.1 with h | h
  · rw [hsel] at h; cases h
  · simpa using h

/-! ### C1 : direct mode refines cached mode -/

/-- C1: for a single-manifest run with a non-empty selector, the direct
updater and the cached updater fed with the cache that
`get_specified_new_deps` builds from the same selector and the same
registry responses produce the same final world (file contents and write
log) and succeed or fail together. -/
theorem c1_direct_cached_equiv (env : Env) (w : World) (mp : Option String)
    (sel : List String) (pre : Bool) (tr : List String) (c : Cache)
    (hsel : sel.isEmpty = false)
    (hc : get_specified_new_deps env pre sel [] = (tr, .ok c)) :
    (update_manifest env w mp sel pre).2.1 = (update_manifest_from_cache env w mp sel c).1 ∧
    ((update_manifest env w mp sel pre).2.2 = none ↔
      (update_manifest_from_cache env w mp sel c).2 = none) := by
  have hagree : ∀ n v, upgradeFilter sel n v = true →
      ∃ d, env.registry n pre = .ok d ∧ cacheGet c n = some d := by
    intro n v hf
    have hn : n ∈ sel := mem_of_upgradeFilter sel n v hsel hf
    have hdom := get_specified_domain env pre sel [] tr c hc n (Or.inl hn)
    obtain ⟨d, hd⟩ := Option.isSome_iff_exists.mp hdom
    refine ⟨d, ?_, hd⟩
    exact get_specified_consistent env pre sel [] tr c
      (fun k d' h => by simp [cacheGet] at h) hc n d hd
  cases hopen : fsGet w.fs (find_file mp) with
  | none => simp [update_manifest, update_manifest_from_cache, hopen]
  | some m =>
    have heq := processSections_cache_eq env pre sel c m.get_sections m
      (fun tp es n v _ hm hf => hagree n v hf)
    rcases hps : processSections env pre sel m.get_sections m with ⟨tr2, r⟩
    have hcc : processSectionsCache sel c m.get_sections m = r := by rw [← heq, hps]
    cases r with
    | error e => simp [update_manifest, update_manifest_from_cache, hopen, hps, hcc]
    | ok m2 =>
      by_cases hw : env.writeOk (find_file mp) = true
      · simp [update_manifest, update_manifest_from_cache, hopen, hps, hcc, hw]
      · simp [update_manifest, update_manifest_from_cache, hopen, hps, hcc, hw]

/-! ### Concrete data for witnesses -/

/-- A registry in which every crate resolves to version `2.0.0`. -/
def regOkFn : String → Bool → Except String Dependency :=
  fun n _ => .ok ⟨n, "2.0.0"⟩

/-- A one-package workspace environment whose writes always succeed. -/
def env1 : Env := ⟨regOkFn, fun _ => .ok [⟨"Cargo.toml", ["foo"]⟩], fun _ => true⟩

/-- A manifest with a single eligible dependency `foo`. -/
def m1 : Manifest := ⟨[("dependencies", [("foo", Toml.scalar "1.0")])]⟩

/-- A world holding `m1` at the default manifest path. -/
def w1 : World := ⟨[("Cargo.toml", m1)], []⟩

/-- Witness for C1: concrete one-package run with selector `foo`. -/
theorem c1_witness :
    (update_manifest env1 w1 none ["foo"] false).2.1 =
      (update_manifest_from_cache env1 w1 none ["foo"]
        [("foo", ⟨"foo", "2.0.0"⟩)]).1 ∧
    ((update_manifest env1 w1 none ["foo"] false).2.2 = none ↔
      (update_manifest_from_cache env1 w1 none ["foo"]
        [("foo", ⟨"foo", "2.0.0"⟩)]).2 = none) :=
  c1_direct_cached_equiv env1 w1 none ["foo"] false ["foo"]
    [("foo", ⟨"foo", "2.0.0"⟩)] rfl rfl

/-! ### C10 : the manifest is persisted even when nothing matched -/

theorem processTable_no_match (env : Env) (pre : Bool) (sel : List String) (tp : String)
    (es : List (String × Toml)) (m : Manifest)
    (h : ∀ kv ∈ es, upgradeFilter sel kv.1 kv.2 = false) :
    processTable env pre sel tp es m = ([], .ok m) := by
  induction es with
  | nil => rfl
  | cons nv rest ih =>
    obtain ⟨n, v⟩ := nv
    have hh : upgradeFilter sel n v = false := h (n, v) (List.mem_cons_self _ _)
    simp only [processTable, hh, Bool.false_eq_true, if_false]
    exact ih (fun kv hm => h kv (List.mem_cons_of_mem _ hm))

theorem processSections_no_match (env : Env) (pre : Bool) (sel : List String)
    (secs : List (String × List (String × Toml))) (m : Manifest)
    (h : ∀ s ∈ secs, ∀ kv ∈ s.2, upgradeFilter sel kv.1 kv.2 = false) :
    processSections env pre sel secs m = ([], .ok m) := by
  induction secs with
  | nil => rfl
  | cons sec rest ih =>
    obtain ⟨tp, es⟩ := sec
    have h1 := processTable_no_match env pre sel tp es m
      (fun kv hm => h (tp, es) (List.mem_cons_self _ _) kv hm)
    simp only [processSections, h1]
    simp [ih (fun s hm => h s (List.mem_cons_of_mem _ hm))]

theorem processTableCache_no_match (sel : List String) (c : Cache) (tp : String)
    (es : List (String × Toml)) (m : Manifest)
    (h : ∀ kv ∈ es, upgradeFilter sel kv.1 kv.2 = false) :
    processTableCache sel c tp es m = .ok m := by
  induction es with
  | nil => rfl
  | cons nv rest ih =>
    obtain ⟨n, v⟩ := nv
    have hh : upgradeFilter sel n v = false := h (n, v) (List.mem_cons_self _ _)
    simp only [processTableCache, hh, Bool.false_eq_true, if_false]
    exact ih (fun kv hm => h kv (List.mem_cons_of_mem _ hm))

theorem processSectionsCache_no_match (sel : List String) (c : Cache)
    (secs : List (String × List (String × Toml))) (m : Manifest)
    (h : ∀ s ∈ secs, ∀ kv ∈ s.2, upgradeFilter sel kv.1 kv.2 = false) :
    processSectionsCache sel c secs m = .ok m := by
  induction secs with
  | nil => rfl
  | cons sec rest ih =>
    obtain ⟨tp, es⟩ := sec
    have h1 := processTableCache_no_match sel c tp es m
      (fun kv hm => h (tp, es) (List.mem_cons_self _ _) kv hm)
    simp only [processSectionsCache, h1]
    exact ih (fun s hm => h s (List.mem_cons_of_mem _ hm))

/-- C10: both updaters serialize the manifest back unconditionally — when
no entry passes the selector-and-eligibility filter, the run still writes
the (unchanged) manifest to its file, extending the write log. -/
theorem c10_unconditional_write (env : Env) (w : World) (mp : Option String)
    (sel : List String) (pre : Bool) (c : Cache) (m : Manifest)
    (hopen : fsGet w.fs (find_file mp) = some m)
    (hnone : ∀ s ∈ m.sections, ∀ kv ∈ s.2, upgradeFilter sel kv.1 kv.2 = false)
    (hw : env.writeOk (find_file mp) = true) :
    update_manifest env w mp sel pre = ([], writeF w (find_file mp) m, none) ∧
    update_manifest_from_cache env w mp sel c = (writeF w (find_file mp) m, none) ∧
    (writeF w (find_file mp) m).writeLog = w.writeLog ++ [find_file mp] := by
  have h1 := processSections_no_match env pre sel m.get_sections m hnone
  have h2 := processSectionsCache_no_match sel c m.get_sections m hnone
  refine ⟨?_, ?_, rfl⟩
  · simp [update_manifest, hopen, h1, hw]
  · simp [update_manifest_from_cache, hopen, h2, hw]

/-- A manifest whose only entries are a git and a path dependency — no
entry is registry-eligible. -/
def mIneligible : Manifest :=
  ⟨[("dependencies", [("bar", Toml.table [("git", "u")]),
    ("baz", Toml.table [("path", "../baz")])])]⟩

/-- A world holding only `mIneligible` at the default path. -/
def wIneligible : World := ⟨[("Cargo.toml", mIneligible)], []⟩

/-- Witness for C10: a run over a manifest with no eligible entry still
rewrites the file. -/
theorem c10_witness :
    update_manifest env1 wIneligible none [] false =
      ([], writeF wIneligible "Cargo.toml" mIneligible, none) ∧
    update_manifest_from_cache env1 wIneligible none [] [] =
      (writeF wIneligible "Cargo.toml" mIneligible, none) ∧
    (writeF wIneligible "Cargo.toml" mIneligible).writeLog = [] ++ ["Cargo.toml"] :=
  c10_unconditional_write env1 wIneligible none [] false [] mIneligible rfl
    (by decide) rfl

/-! ### C5 : a cache-construction failure aborts the whole run untouched -/

/-- C5: when version-cache construction fails (in either mode), the
workspace run returns that error with the world unchanged — no manifest
is opened, written, or updated from a partial cache. -/
theorem c5_cache_failure_aborts (env : Env) (w : World) (mp : Option String)
    (sel : List String) (pre : Bool) (tr : List String) (e : String)
    (hfail : (if !sel.isEmpty
        then get_specified_new_deps env pre sel []
        else get_all_new_deps env mp pre) = (tr, .error e)) :
    update_workspace_manifests env w mp sel pre = (tr, w, some e) := by
  unfold update_workspace_manifests
  rw [hfail]

/-- An environment whose registry always fails. -/
def envFail : Env :=
  ⟨fun _ _ => .error "request timed out", fun _ => .ok [], fun _ => true⟩

/-- Witness for C5: a failing lookup aborts the workspace run with the
world untouched. -/
theorem c5_witness :
    update_workspace_manifests envFail ⟨[], []⟩ none ["a"] false =
      (["a"], ⟨[], []⟩, some "request timed out") :=
  c5_cache_failure_aborts envFail ⟨[], []⟩ none ["a"] false ["a"] "request timed out" rfl

/-! ### C6 : fail-fast across workspace manifests -/

theorem umfc_error_world (env : Env) (w : World) (mp : Option String)
    (sel : List String) (c : Cache) (e : String)
    (h : (update_manifest_from_cache env w mp sel c).2 = some e) :
    (update_manifest_from_cache env w mp sel c).1 = w := by
  cases hopen : fsGet w.fs (find_file mp) with
  | none => simp [update_manifest_from_cache, hopen]
  | some m =>
    cases hps : processSectionsCache sel c m.get_sections m with
    | error e2 => simp [update_manifest_from_cache, hopen, hps]
    | ok m2 =>
      by_cases hw : env.writeOk (find_file mp) = true
      · simp [update_manifest_from_cache, hopen, hps, hw] at h
      · simp [update_manifest_from_cache, hopen, hps, hw]

theorem wsLoop_append_ok (env : Env) (sel : List String) (c : Cache) :
    ∀ (ms1 : List String) (w w1 : World),
    wsLoop env sel c w ms1 = (w1, none) →
    ∀ (ms2 : List String), wsLoop env sel c w (ms1 ++ ms2) = wsLoop env sel c w1 ms2 := by
  intro ms1
  induction ms1 with
  | nil =>
    intro w w1 h ms2
    simp only [wsLoop, Prod.mk.injEq] at h
    rw [h.1]
    simp
  | cons p rest ih =>
    intro w w1 h ms2
    rcases hu : update_manifest_from_cache env w (some p) sel c with ⟨w2, err⟩
    cases err with
    | some e => simp [wsLoop, hu] at h
    | none =>
      have h2 : wsLoop env sel c w2 rest = (w1, none) := by
        simpa [wsLoop, hu] using h
      simpa [wsLoop, hu] using ih w2 w1 h2 ms2

/-- C6: in a workspace run, if updating the manifest at position `k`
fails, the already-updated manifests keep their persisted state (the final
world is the one reached after the successful prefix), the manifests after
position `k` are never visited (the result is independent of them), and
the run reports the failing manifest's error. -/
theorem c6_fail_fast (env : Env) (w : World) (mp : Option String) (sel : List String)
    (pre : Bool) (tr : List String) (c : Cache) (ms1 : List String) (pk : String)
    (ms2 : List String) (w1 : World) (e : String)
    (hcache : (if !sel.isEmpty
        then get_specified_new_deps env pre sel []
        else get_all_new_deps env mp pre) = (tr, .ok c))
    (hws : get_workspace_manifests env mp = .ok (ms1 ++ pk :: ms2))
    (hpre : wsLoop env sel c w ms1 = (w1, none))
    (hfail : (update_manifest_from_cache env w1 (some pk) sel c).2 = some e) :
    update_workspace_manifests env w mp sel pre = (tr, w1, some e) := by
  unfold update_workspace_manifests
  rw [hcache, hws]
  have h1 := wsLoop_append_ok env sel c ms1 w w1 hpre (pk :: ms2)
  have h2 := umfc_error_world env w1 (some pk) sel c e hfail
  have h3 : wsLoop env sel c w1 (pk :: ms2) = (w1, some e) := by
    rcases hu : update_manifest_from_cache env w1 (some pk) sel c with ⟨w2, err⟩
    have he : err = some e := by rw [hu] at hfail; exact hfail
    subst he
    have hww : w2 = w1 := by rw [hu] at h2; exact h2
    subst hww
    simp [wsLoop, hu]
  simp [h1, h3]

/-- The upgraded form of `m1`: `foo` at version `2.0.0`. -/
def m1up : Manifest := ⟨[("dependencies", [("foo", Toml.scalar "2.0.0")])]⟩

/-- A three-package workspace environment whose write to `p2` fails. -/
def env6 : Env :=
  ⟨regOkFn,
   fun _ => .ok [⟨"p1", ["foo"]⟩, ⟨"p2", ["foo"]⟩, ⟨"p3", ["foo"]⟩],
   fun p => !(p == "p2")⟩

/-- A world with the same one-dependency manifest at three paths. -/
def w6 : World := ⟨[("p1", m1), ("p2", m1), ("p3", m1)], []⟩

/-- The world after the first manifest was updated and persisted. -/
def w6a : World := ⟨[("p1", m1up), ("p2", m1), ("p3", m1)], ["p1"]⟩

/-- Witness for C6: with three manifests and a write failure on the
second, the first stays persisted, the third is untouched, and the run
reports the second manifest's error. -/
theorem c6_witness :
    update_workspace_manifests env6 w6 none ["foo"] false =
      (["foo"], w6a, some "Failed to write new manifest contents") :=
  c6_fail_fast env6 w6 none ["foo"] false ["foo"] [("foo", ⟨"foo", "2.0.0"⟩)]
    ["p1"] "p2" ["p3"] w6a "Failed to write new manifest contents" rfl rfl rfl rfl

/-! ### C7 : cached-mode cache misses -/

theorem processTableCache_ok_present (sel : List String) (c : Cache) (tp : String) :
    ∀ (es : List (String × Toml)) (m m2 : Manifest),
    processTableCache sel c tp es m = .ok m2 →
    ∀ n v, (n, v) ∈ es → upgradeFilter sel n v = true → (cacheGet c n).isSome = true := by
  intro es
  induction es with
  | nil => intro m m2 h n v hm; cases hm
  | cons nv rest ih =>
    intro m m2 h n v hm hf
    obtain ⟨n0, v0⟩ := nv
    by_cases hf0 : upgradeFilter sel n0 v0 = true
    · cases hcg : cacheGet c n0 with
      | none => simp [processTableCache, hf0, hcg] at h
      | some d =>
        rcases List.mem_cons.mp hm with heq | hm
        · rw [Prod.mk.injEq] at heq
          rw [heq.1, hcg]
          rfl
        · exact ih _ m2 (by simpa [processTableCache, hf0, hcg] using h) n v hm hf
    · rcases List.mem_cons.mp hm with heq | hm
      · rw [Prod.mk.injEq] at heq
        rw [heq.1, heq.2] at hf
        exact absurd hf hf0
      · exact ih m m2 (by simpa [processTableCache, hf0] using h) n v hm hf

theorem processSectionsCache_ok_present (sel : List String) (c : Cache) :
    ∀ (secs : List (String × List (String × Toml))) (m m2 : Manifest),
    processSectionsCache sel c secs m = .ok m2 →
    ∀ tp es n v, (tp, es) ∈ secs → (n, v) ∈ es → upgradeFilter sel n v = true →
    (cacheGet c n).isSome = true := by
  intro secs
  induction secs with
  | nil => intro m m2 h tp es n v hm; cases hm
  | cons sec rest ih =>
    intro m m2 h tp es n v hm hme hf
    obtain ⟨tp0, es0⟩ := sec
    cases hpt : processTableCache sel c tp0 es0 m with
    | error e => simp [processSectionsCache, hpt] at h
    | ok mm =>
      rcases List.mem_cons.mp hm with heq | hm
      · rw [Prod.mk.injEq] at heq
        exact processTableCache_ok_present sel c tp0 es0 m mm hpt n v (heq.2 ▸ hme) hf
      · exact ih mm m2 (by simpa [processSectionsCache, hpt] using h) tp es n v hm hme hf

theorem buildCache_domain (env : Env) (pre : Bool) :
    ∀ (names : List String) (acc : Cache) (tr : List String) (c : Cache),
    buildCache env pre names acc = (tr, .ok c) →
    ∀ n, (n ∈ names ∨ (cacheGet acc n).isSome = true) → (cacheGet c n).isSome = true := by
  intro names
  induction names with
  | nil =>
    intro acc tr c heq n hn
    simp only [buildCache, Prod.mk.injEq] at heq
    obtain ⟨-, heq⟩ := heq
    cases heq
    rcases hn with hn | hn
    · cases hn
    · exact hn
  | cons s rest ih =>
    intro acc tr c heq n hn
    by_cases hmem : (cacheGet acc s).isSome = true
    · simp only [buildCache, hmem, if_true] at heq
      refine ih acc tr c heq n ?_
      rcases hn with hn | hn
      · rcases List.mem_cons.mp hn with hn | hn
        · exact Or.inr (by rw [hn]; exact hmem)
        · exact Or.inl hn
      · exact Or.inr hn
    · cases hreg : env.registry s pre with
      | error e => simp [buildCache, hmem, hreg] at heq
      | ok d =>
        rw [buildCache] at heq
        simp only [hmem, if_false, hreg] at heq
        have h2 : (buildCache env pre rest (cacheInsert acc s d)).2 = Except.ok c :=
          congrArg Prod.snd heq
        have hok : buildCache env pre rest (cacheInsert acc s d) =
            ((buildCache env pre rest (cacheInsert acc s d)).1, Except.ok c) := by
          rw [← h2]
        refine ih (cacheInsert acc s d) (buildCache env pre rest (cacheInsert acc s d)).1
          c hok n ?_
        rcases hn with hn | hn
        · rcases List.mem_cons.mp hn with hn | hn
          · exact Or.inr (cacheGet_insert_isSome _ _ _ _ (Or.inr hn.symm))
          · exact Or.inl hn
        · exact Or.inr (cacheGet_insert_isSome _ _ _ _ (Or.inl hn))

/-- C7: (a) if an entry that passes the selector-and-eligibility filter
has a name absent from the cache, the cached updater fails; (b) a cache
built by `get_specified_new_deps` from the selector covers every name that
passes a non-empty selector's filter; (c) a cache built by
`get_all_new_deps` covers every declared workspace dependency name, so
under the construction contract the missing-name branch is unreachable. -/
theorem c7_cache_miss_safety :
    (∀ (env : Env) (w : World) (mp : Option String) (sel : List String) (c : Cache)
      (m : Manifest) (tp : String) (es : List (String × Toml)) (n : String) (v : Toml),
      fsGet w.fs (find_file mp) = some m → (tp, es) ∈ m.sections → (n, v) ∈ es →
      upgradeFilter sel n v = true → cacheGet c n = none →
      (update_manifest_from_cache env w mp sel c).2.isSome = true) ∧
    (∀ (env : Env) (pre : Bool) (sel : List String) (tr : List String) (c : Cache),
      sel.isEmpty = false →
      get_specified_new_deps env pre sel [] = (tr, .ok c) →
      ∀ n v, upgradeFilter sel n v = true → (cacheGet c n).isSome = true) ∧
    (∀ (env : Env) (mp : Option String) (pre : Bool) (pkgs : List Package)
      (tr : List String) (c : Cache),
      env.metadata mp = .ok pkgs →
      get_all_new_deps env mp pre = (tr, .ok c) →
      ∀ n, n ∈ (pkgs.map Package.dependencies).flatten → (cacheGet c n).isSome = true) := by
  refine ⟨?_, ?_, ?_⟩
  · intro env w mp sel c m tp es n v hopen hsec hme hf hmiss
    cases hps : processSectionsCache sel c m.get_sections m with
    | error e => simp [update_manifest_from_cache, hopen, hps]
    | ok m2 =>
      have := processSectionsCache_ok_present sel c m.get_sections m m2 hps tp es n v hsec hme hf
      rw [hmiss] at this
      cases this
  · intro env pre sel tr c hsel hc n v hf
    exact get_specified_domain env pre sel [] tr c hc n
      (Or.inl (mem_of_upgradeFilter sel n v hsel hf))
  · intro env mp pre pkgs tr c hmeta hall n hn
    have hga : get_all_new_deps env mp pre =
        buildCache env pre ((pkgs.map Package.dependencies).flatten) [] := by
      simp [get_all_new_deps, hmeta]
    rw [hga] at hall
    exact buildCache_domain env pre _ [] tr c hall n (Or.inl hn)

/-- Witness for C7: a filtered entry whose name is missing from an empty
cache makes the cached updater fail. -/
theorem c7_witness :
    (update_manifest_from_cache env1 w1 none ["foo"] []).2.isSome = true :=
  c7_cache_miss_safety.1 env1 w1 none ["foo"] [] m1 "dependencies"
    [("foo", Toml.scalar "1.0")] "foo" (Toml.scalar "1.0") rfl (by decide) (by decide)
    (by decide) rfl

/-! ### C4 : full-workspace cache construction deduplicates lookups -/

theorem buildCache_trace_mem (env : Env) (pre : Bool) :
    ∀ (names : List String) (acc : Cache) (n : String),
    n ∈ (buildCache env pre names acc).1 → n ∈ names ∧ cacheGet acc n = none := by
  intro names
  induction names with
  | nil => intro acc n h; simp [buildCache] at h
  | cons s rest ih =>
    intro acc n h
    by_cases hmem : (cacheGet acc s).isSome = true
    · simp only [buildCache, hmem, if_true] at h
      obtain ⟨h1, h2⟩ := ih acc n h
      exact ⟨List.mem_cons_of_mem _ h1, h2⟩
    · cases hreg : env.registry s pre with
      | error e =>
        rw [buildCache] at h
        simp only [hmem, Bool.false_eq_true, if_false, hreg, List.mem_singleton] at h
        subst h
        exact ⟨List.mem_cons_self _ _, Option.not_isSome_iff_eq_none.mp hmem⟩
      | ok d =>
        rw [buildCache] at h
        simp only [hmem, Bool.false_eq_true, if_false, hreg, List.mem_cons] at h
        rcases h with h | h
        · subst h
          exact ⟨List.mem_cons_self _ _, Option.not_isSome_iff_eq_none.mp hmem⟩
        · obtain ⟨h1, h2⟩ := ih (cacheInsert acc s d) n h
          refine ⟨List.mem_cons_of_mem _ h1, ?_⟩
          by_cases hns : s = n
          · subst hns
            rw [cacheGet_insert_self] at h2
            cases h2
          · rw [cacheGet_insert_ne _ _ _ _ hns] at h2
            exact h2

theorem buildCache_trace_nodup (env : Env) (pre : Bool) :
    ∀ (names : List String) (acc : Cache), (buildCache env pre names acc).1.Nodup := by
  intro names
  induction names with
  | nil => intro acc; simp [buildCache]
  | cons s rest ih =>
    intro acc
    by_cases hmem : (cacheGet acc s).isSome = true
    · simp only [buildCache, hmem, if_true]
      exact ih acc
    · cases hreg : env.registry s pre with
      | error e =>
        rw [buildCache]
        simp [hmem, hreg]
      | ok d =>
        rw [buildCache]
        simp only [hmem, Bool.false_eq_true, if_false, hreg, List.nodup_cons]
        refine ⟨?_, ih _⟩
        intro hmem2
        have := (buildCache_trace_mem env pre rest (cacheInsert acc s d) s hmem2).2
        rw [cacheGet_insert_self] at this
        cases this

theorem buildCache_trace_complete (env : Env) (pre : Bool) :
    ∀ (names : List String) (acc : Cache),
    (∀ n ∈ names, isOkB (env.registry n pre) = true) →
    ∀ n ∈ names, cacheGet acc n = none → n ∈ (buildCache env pre names acc).1 := by
  intro names
  induction names with
  | nil => intro acc hok n hn; cases hn
  | cons s rest ih =>
    intro acc hok n hn hnone
    by_cases hmem : (cacheGet acc s).isSome = true
    · have hr : n ∈ rest := by
        rcases List.mem_cons.mp hn with h | h
        · subst h; rw [hnone] at hmem; cases hmem
        · exact h
      have := ih acc (fun k hk => hok k (List.mem_cons_of_mem _ hk)) n hr hnone
      simpa [buildCache, hmem] using this
    · cases hreg : env.registry s pre with
      | error e =>
        have := hok s (List.mem_cons_self _ _)
        simp [isOkB, hreg] at this
      | ok d =>
        rcases List.mem_cons.mp hn with h | h
        · subst h
          rw [buildCache]
          simp [hmem, hreg]
        · by_cases hns : s = n
          · subst hns
            rw [buildCache]
            simp [hmem, hreg]
          · have hnone2 : cacheGet (cacheInsert acc s d) n = none := by
              rw [cacheGet_insert_ne _ _ _ _ hns]; exact hnone
            have hr := ih (cacheInsert acc s d)
              (fun k hk => hok k (List.mem_cons_of_mem _ hk)) n h hnone2
            rw [buildCache]
            simp only [hmem, Bool.false_eq_true, if_false, hreg, List.mem_cons]
            exact Or.inr hr

/-- C4: over a workspace whose packages declare a multiset of direct
dependency names, `get_all_new_deps` performs exactly one registry lookup
per distinct name — its lookup trace has no duplicates and contains
exactly the declared names. -/
theorem c4_dedup_lookups (env : Env) (mp : Option String) (pre : Bool)
    (pkgs : List Package)
    (hmeta : env.metadata mp = .ok pkgs)
    (hok : ∀ n ∈ (pkgs.map Package.dependencies).flatten, isOkB (env.registry n pre) = true) :
    (get_all_new_deps env mp pre).1.Nodup ∧
    (∀ n, n ∈ (get_all_new_deps env mp pre).1 ↔
      n ∈ (pkgs.map Package.dependencies).flatten) := by
  have hga : get_all_new_deps env mp pre =
      buildCache env pre ((pkgs.map Package.dependencies).flatten) [] := by
    simp [get_all_new_deps, hmeta]
  rw [hga]
  refine ⟨buildCache_trace_nodup env pre _ _, fun n => ⟨?_, ?_⟩⟩
  · intro h
    exact (buildCache_trace_mem env pre _ _ n h).1
  · intro h
    exact buildCache_trace_complete env pre _ [] hok n h rfl

/-- The two-package workspace of the spec's cache-determinism example:
dependencies `a` and `b`, with `a` declared by both packages. -/
def pkgs4 : List Package := [⟨"p1", ["a", "b"]⟩, ⟨"p2", ["a"]⟩]

/-- Environment exposing `pkgs4` with an always-succeeding registry. -/
def env4 : Env := ⟨regOkFn, fun _ => .ok pkgs4, fun _ => true⟩

/-- Witness for C4: the shared name `a` is looked up once — two lookups
total for `{a, b, a}`. -/
theorem c4_witness :
    (get_all_new_deps env4 none false).1.Nodup ∧
    (∀ n, n ∈ (get_all_new_deps env4 none false).1 ↔
      n ∈ (pkgs4.map Package.dependencies).flatten) :=
  c4_dedup_lookups env4 none false pkgs4 rfl (by decide)

/-! ### C8 : lookup idempotence per name -/

/-- C8 counterexample: with the explicit selector `["a", "a"]`,
`get_specified_new_deps` looks the name `a` up twice — its lookup trace
counts `a` twice, refuting "no name triggers more than one registry
lookup during cache construction" as stated for every input. -/
theorem c8_counterexample :
    (get_specified_new_deps env1 false ["a", "a"] []).1 = ["a", "a"] ∧
    ¬ ((get_specified_new_deps env1 false ["a", "a"] []).1.count "a" ≤ 1) := by
  exact ⟨rfl, by decide⟩

/-- Keys of a cache never repeat. -/
def cacheKeysNodup (c : Cache) : Prop := (c.map Prod.fst).Nodup

theorem cacheInsert_keys_mem (c : Cache) (k : String) (d : Dependency) (n : String) :
    n ∈ (cacheInsert c k d).map Prod.fst ↔ n ∈ c.map Prod.fst ∨ n = k := by
  induction c with
  | nil => simp [cacheInsert]
  | cons kv rest ih =>
    by_cases h : kv.1 = k
    · simp only [cacheInsert, h, if_true, List.map_cons, List.mem_cons]
      constructor
      · intro hh
        rcases hh with hh | hh
        · exact Or.inr hh
        · exact Or.inl (Or.inr hh)
      · intro hh
        rcases hh with hh | hh
        · rcases hh with hh | hh
          · exact Or.inl (h ▸ hh)
          · exact Or.inr hh
        · exact Or.inl hh
    · simp only [cacheInsert, h, if_false, List.map_cons, List.mem_cons, ih]
      tauto

theorem cacheInsert_keysNodup (c : Cache) (k : String) (d : Dependency)
    (h : cacheKeysNodup c) : cacheKeysNodup (cacheInsert c k d) := by
  induction c with
  | nil => simp [cacheInsert, cacheKeysNodup]
  | cons kv rest ih =>
    unfold cacheKeysNodup at h ⊢
    rw [List.map_cons, List.nodup_cons] at h
    by_cases hk : kv.1 = k
    · rw [cacheInsert]
      rw [if_pos hk, List.map_cons, List.nodup_cons]
      exact ⟨by rw [← hk]; exact h.1, h.2⟩
    · rw [cacheInsert]
      rw [if_neg hk, List.map_cons, List.nodup_cons]
      constructor
      · intro hm
        rcases (cacheInsert_keys_mem rest k d kv.1).mp hm with hm | hm
        · exact h.1 hm
        · exact hk hm
      · exact ih h.2

theorem get_specified_keysNodup (env : Env) (pre : Bool) :
    ∀ (sel : List String) (acc : Cache) (tr : List String) (c : Cache),
    cacheKeysNodup acc →
    get_specified_new_deps env pre sel acc = (tr, .ok c) → cacheKeysNodup c := by
  intro sel
  induction sel with
  | nil =>
    intro acc tr c hacc heq
    simp only [get_specified_new_deps, Prod.mk.injEq] at heq
    obtain ⟨-, heq⟩ := heq
    cases heq
    exact hacc
  | cons s rest ih =>
    intro acc tr c hacc heq
    cases hreg : env.registry s pre with
    | error e => simp [get_specified_new_deps, hreg] at heq
    | ok d =>
      simp only [get_specified_new_deps, hreg] at heq
      have h2 : (get_specified_new_deps env pre rest (cacheInsert acc s d)).2 =
          Except.ok c := congrArg Prod.snd heq
      have hok : get_specified_new_deps env pre rest (cacheInsert acc s d) =
          ((get_specified_new_deps env pre rest (cacheInsert acc s d)).1,
            Except.ok c) := by
        rw [← h2]
      exact ih (cacheInsert acc s d) _ c (cacheInsert_keysNodup acc s d hacc) hok

theorem buildCache_keysNodup (env : Env) (pre : Bool) :
    ∀ (names : List String) (acc : Cache) (tr : List String) (c : Cache),
    cacheKeysNodup acc →
    buildCache env pre names acc = (tr, .ok c) → cacheKeysNodup c := by
  intro names
  induction names with
  | nil =>
    intro acc tr c hacc heq
    simp only [buildCache, Prod.mk.injEq] at heq
    obtain ⟨-, heq⟩ := heq
    cases heq
    exact hacc
  | cons s rest ih =>
    intro acc tr c hacc heq
    by_cases hmem : (cacheGet acc s).isSome = true
    · simp only [buildCache, hmem, if_true] at heq
      exact ih acc tr c hacc heq
    · cases hreg : env.registry s pre with
      | error e => simp [buildCache, hmem, hreg] at heq
      | ok d =>
        rw [buildCache] at heq
        simp only [hmem, Bool.false_eq_true, if_false, hreg] at heq
        have h2 : (buildCache env pre rest (cacheInsert acc s d)).2 =
            Except.ok c := congrArg Prod.snd heq
        have hok : buildCache env pre rest (cacheInsert acc s d) =
            ((buildCache env pre rest (cacheInsert acc s d)).1, Except.ok c) := by
          rw [← h2]
        exact ih (cacheInsert acc s d) _ c (cacheInsert_keysNodup acc s d hacc) hok

theorem keysNodup_unique (c : Cache) (h : cacheKeysNodup c) (n : String)
    (d1 d2 : Dependency) (h1 : (n, d1) ∈ c) (h2 : (n, d2) ∈ c) : d1 = d2 := by
  induction c with
  | nil => cases h1
  | cons kv rest ih =>
    unfold cacheKeysNodup at h
    rw [List.map_cons, List.nodup_cons] at h
    rcases List.mem_cons.mp h1 with h1 | h1 <;> rcases List.mem_cons.mp h2 with h2 | h2
    · have := h1.trans h2.symm
      exact ((Prod.mk.injEq _ _ _ _).mp this).2
    · exfalso
      refine h.1 ?_
      rw [show kv.1 = n from (congrArg Prod.fst h1).symm]
      exact List.mem_map.mpr ⟨(n, d2), h2, rfl⟩
    · exfalso
      refine h.1 ?_
      rw [show kv.1 = n from (congrArg Prod.fst h2).symm]
      exact List.mem_map.mpr ⟨(n, d1), h1, rfl⟩
    · exact ih h.2 h1 h2

theorem get_specified_trace (env : Env) (pre : Bool) :
    ∀ (sel : List String) (acc : Cache),
    (∀ n ∈ sel, isOkB (env.registry n pre) = true) →
    (get_specified_new_deps env pre sel acc).1 = sel := by
  intro sel
  induction sel with
  | nil => intro acc h; rfl
  | cons s rest ih =>
    intro acc h
    cases hreg : env.registry s pre with
    | error e =>
      have := h s (List.mem_cons_self _ _)
      simp [isOkB, hreg] at this
    | ok d =>
      simp only [get_specified_new_deps, hreg]
      rw [ih _ (fun n hn => h n (List.mem_cons_of_mem _ hn))]

/-- C8 amended: full-workspace cache construction performs at most one
lookup per distinct name (its trace never repeats a name); explicit-selector
construction performs exactly one lookup per selector element, so a
repeated selector name repeats its lookup; and in both modes the finished
cache holds at most one specifier per name, hence never two disagreeing
specifiers. -/
theorem c8_amended :
    (∀ (env : Env) (pre : Bool) (names : List String) (acc : Cache),
      (buildCache env pre names acc).1.Nodup) ∧
    (∀ (env : Env) (pre : Bool) (sel : List String),
      (∀ n ∈ sel, isOkB (env.registry n pre) = true) →
      (get_specified_new_deps env pre sel []).1 = sel) ∧
    (∀ (env : Env) (pre : Bool) (sel : List String) (tr : List String) (c : Cache),
      get_specified_new_deps env pre sel [] = (tr, .ok c) →
      ∀ n d1 d2, (n, d1) ∈ c → (n, d2) ∈ c → d1 = d2) ∧
    (∀ (env : Env) (mp : Option String) (pre : Bool) (tr : List String) (c : Cache),
      get_all_new_deps env mp pre = (tr, .ok c) →
      ∀ n d1 d2, (n, d1) ∈ c → (n, d2) ∈ c → d1 = d2) := by
  refine ⟨fun env pre names acc => buildCache_trace_nodup env pre names acc,
    fun env pre sel h => get_specified_trace env pre sel [] h, ?_, ?_⟩
  · intro env pre sel tr c hc n d1 d2 h1 h2
    have hnd := get_specified_keysNodup env pre sel [] tr c (by simp [cacheKeysNodup]) hc
    exact keysNodup_unique c hnd n d1 d2 h1 h2
  · intro env mp pre tr c hc n d1 d2 h1 h2
    cases hmeta : env.metadata mp with
    | error e => simp [get_all_new_deps, hmeta] at hc
    | ok pkgs =>
      rw [get_all_new_deps] at hc
      rw [hmeta] at hc
      have hnd := buildCache_keysNodup env pre _ [] tr c (by simp [cacheKeysNodup]) hc
      exact keysNodup_unique c hnd n d1 d2 h1 h2

/-- Witness for C8's amended theorem: a two-element selector with distinct
names is looked up exactly once per element. -/
theorem c8_amended_witness :
    (get_specified_new_deps env1 false ["a", "b"] []).1 = ["a", "b"] :=
  c8_amended.2.1 env1 false ["a", "b"] (by decide)

/-! ### C9 : a selector name absent from the manifests is not an error -/

theorem processTable_isOk (env : Env) (pre : Bool) (sel : List String) (tp : String) :
    ∀ (es : List (String × Toml)) (m : Manifest),
    (∀ kv ∈ es, upgradeFilter sel kv.1 kv.2 = true → isOkB (env.registry kv.1 pre) = true) →
    isOkB (processTable env pre sel tp es m).2 = true := by
  intro es
  induction es with
  | nil => intro m h; rfl
  | cons nv rest ih =>
    intro m h
    obtain ⟨n, v⟩ := nv
    by_cases hf : upgradeFilter sel n v = true
    · cases hreg : env.registry n pre with
      | error e =>
        have := h (n, v) (List.mem_cons_self _ _) hf
        simp [isOkB, hreg] at this
      | ok d =>
        simp only [processTable, hf, if_true, hreg]
        exact ih _ (fun kv hm => h kv (List.mem_cons_of_mem _ hm))
    · rw [Bool.not_eq_true] at hf
      simp only [processTable, hf, Bool.false_eq_true, if_false]
      exact ih m (fun kv hm => h kv (List.mem_cons_of_mem _ hm))

theorem processSections_isOk (env : Env) (pre : Bool) (sel : List String) :
    ∀ (secs : List (String × List (String × Toml))) (m : Manifest),
    (∀ s ∈ secs, ∀ kv ∈ s.2, upgradeFilter sel kv.1 kv.2 = true →
      isOkB (env.registry kv.1 pre) = true) →
    isOkB (processSections env pre sel secs m).2 = true := by
  intro secs
  induction secs with
  | nil => intro m h; rfl
  | cons sec rest ih =>
    intro m h
    obtain ⟨tp, es⟩ := sec
    have h1 := processTable_isOk env pre sel tp es m
      (fun kv hm => h (tp, es) (List.mem_cons_self _ _) kv hm)
    rcases hpt : processTable env pre sel tp es m with ⟨tr, r⟩
    cases r with
    | error e => rw [hpt] at h1; simp [isOkB] at h1
    | ok m2 =>
      simp only [processSections, hpt]
      exact ih m2 (fun s hm => h s (List.mem_cons_of_mem _ hm))

theorem update_manifest_ok (env : Env) (w : World) (mp : Option String)
    (sel : List String) (pre : Bool) (m : Manifest)
    (hopen : fsGet w.fs (find_file mp) = some m)
    (hok : ∀ s ∈ m.sections, ∀ kv ∈ s.2, upgradeFilter sel kv.1 kv.2 = true →
      isOkB (env.registry kv.1 pre) = true)
    (hw : env.writeOk (find_file mp) = true) :
    (update_manifest env w mp sel pre).2.2 = none := by
  have h1 := processSections_isOk env pre sel m.get_sections m hok
  rcases hps : processSections env pre sel m.get_sections m with ⟨tr, r⟩
  cases r with
  | error e => rw [hps] at h1; simp [isOkB] at h1
  | ok m2 => simp [update_manifest, hopen, hps, hw]

theorem processTableCache_isOk (sel : List String) (c : Cache) (tp : String) :
    ∀ (es : List (String × Toml)) (m : Manifest),
    (∀ kv ∈ es, upgradeFilter sel kv.1 kv.2 = true → (cacheGet c kv.1).isSome = true) →
    isOkB (processTableCache sel c tp es m) = true := by
  intro es
  induction es with
  | nil => intro m h; rfl
  | cons nv rest ih =>
    intro m h
    obtain ⟨n, v⟩ := nv
    by_cases hf : upgradeFilter sel n v = true
    · cases hcg : cacheGet c n with
      | none =>
        have := h (n, v) (List.mem_cons_self _ _) hf
        rw [hcg] at this
        cases this
      | some d =>
        simp only [processTableCache, hf, if_true, hcg]
        exact ih _ (fun kv hm => h kv (List.mem_cons_of_mem _ hm))
    · rw [Bool.not_eq_true] at hf
      simp only [processTableCache, hf, Bool.false_eq_true, if_false]
      exact ih m (fun kv hm => h kv (List.mem_cons_of_mem _ hm))

theorem processSectionsCache_isOk (sel : List String) (c : Cache) :
    ∀ (secs : List (String × List (String × Toml))) (m : Manifest),
    (∀ s ∈ secs, ∀ kv ∈ s.2, upgradeFilter sel kv.1 kv.2 = true →
      (cacheGet c kv.1).isSome = true) →
    isOkB (processSectionsCache sel c secs m) = true := by
  intro secs
  induction secs with
  | nil => intro m h; rfl
  | cons sec rest ih =>
    intro m h
    obtain ⟨tp, es⟩ := sec
    have h1 := processTableCache_isOk sel c tp es m
      (fun kv hm => h (tp, es) (List.mem_cons_self _ _) kv hm)
    cases hpt : processTableCache sel c tp es m with
    | error e => rw [hpt] at h1; simp [isOkB] at h1
    | ok m2 =>
      simp only [processSectionsCache, hpt]
      exact ih m2 (fun s hm => h s (List.mem_cons_of_mem _ hm))

theorem umfc_ok (env : Env) (w : World) (mp : Option String) (sel : List String)
    (c : Cache) (m : Manifest)
    (hopen : fsGet w.fs (find_file mp) = some m)
    (hpresent : ∀ s ∈ m.sections, ∀ kv ∈ s.2, upgradeFilter sel kv.1 kv.2 = true →
      (cacheGet c kv.1).isSome = true)
    (hw : env.writeOk (find_file mp) = true) :
    ∃ m2, update_manifest_from_cache env w mp sel c =
      (writeF w (find_file mp) m2, none) := by
  have h1 := processSectionsCache_isOk sel c m.get_sections m hpresent
  cases hps : processSectionsCache sel c m.get_sections m with
  | error e => rw [hps] at h1; simp [isOkB] at h1
  | ok m2 =>
    refine ⟨m2, ?_⟩
    simp [update_manifest_from_cache, hopen, hps, hw]

theorem fsGet_fsSet_isSome : ∀ (fs : List (String × Manifest)) (p : String) (m : Manifest)
    (q : String), (fsGet fs q).isSome = true → (fsGet (fsSet fs p m) q).isSome = true := by
  intro fs
  induction fs with
  | nil => intro p m q h; simp [fsGet] at h
  | cons e rest ih =>
    intro p m q h
    by_cases hep : e.1 = p
    · simp only [fsSet, hep, if_true]
      by_cases hq : p = q
      · simp [fsGet, hq]
      · simp only [fsGet, hq, if_false]
        simp only [fsGet] at h
        rw [if_neg (by rw [hep]; exact hq)] at h
        exact h
    · simp only [fsSet, hep, if_false]
      simp only [fsGet] at h ⊢
      by_cases heq : e.1 = q
      · rw [if_pos heq]; rfl
      · rw [if_neg heq] at h ⊢
        exact ih p m q h

theorem wsLoop_ok (env : Env) (sel : List String) (c : Cache)
    (hpresent : ∀ n v, upgradeFilter sel n v = true → (cacheGet c n).isSome = true) :
    ∀ (paths : List String) (w : World),
    (∀ p ∈ paths, (fsGet w.fs p).isSome = true ∧ env.writeOk p = true) →
    (wsLoop env sel c w paths).2 = none := by
  intro paths
  induction paths with
  | nil => intro w h; rfl
  | cons p rest ih =>
    intro w h
    obtain ⟨hopen, hw⟩ := h p (List.mem_cons_self _ _)
    obtain ⟨m, hm⟩ := Option.isSome_iff_exists.mp hopen
    obtain ⟨m2, hup⟩ := umfc_ok env w (some p) sel c m hm
      (fun s hs kv hkv hf => hpresent kv.1 kv.2 hf) hw
    simp only [wsLoop, hup]
    refine ih (writeF w p m2) ?_
    intro q hq
    obtain ⟨ho, hwq⟩ := h q (List.mem_cons_of_mem _ hq)
    exact ⟨fsGet_fsSet_isSome w.fs p m2 q ho, hwq⟩

theorem get_specified_isOk (env : Env) (pre : Bool) :
    ∀ (sel : List String) (acc : Cache),
    (∀ n ∈ sel, isOkB (env.registry n pre) = true) →
    isOkB (get_specified_new_deps env pre sel acc).2 = true := by
  intro sel
  induction sel with
  | nil => intro acc h; rfl
  | cons s rest ih =>
    intro acc h
    cases hreg : env.registry s pre with
    | error e =>
      have := h s (List.mem_cons_self _ _)
      simp [isOkB, hreg] at this
    | ok d =>
      simp only [get_specified_new_deps, hreg]
      exact ih _ (fun n hn => h n (List.mem_cons_of_mem _ hn))

/-- C9: a name present in the Upgrade Selector but absent from every
targeted manifest does not make the run fail: both the direct-mode run
over such a manifest and the workspace-mode run over such manifests
complete successfully — the selector is a filter, not a requirement. -/
theorem c9_absent_selector_name :
    (∀ (env : Env) (w : World) (mp : Option String) (sel : List String) (pre : Bool)
      (m : Manifest) (x : String),
      x ∈ sel →
      (∀ s ∈ m.sections, ∀ kv ∈ s.2, kv.1 ≠ x) →
      fsGet w.fs (find_file mp) = some m →
      (∀ n ∈ sel, isOkB (env.registry n pre) = true) →
      env.writeOk (find_file mp) = true →
      (update_manifest env w mp sel pre).2.2 = none) ∧
    (∀ (env : Env) (w : World) (mp : Option String) (sel : List String) (pre : Bool)
      (pkgs : List Package) (x : String),
      x ∈ sel →
      env.metadata mp = .ok pkgs →
      (∀ n ∈ sel, isOkB (env.registry n pre) = true) →
      (∀ p ∈ pkgs.map Package.manifest_path,
        (fsGet w.fs p).isSome = true ∧ env.writeOk p = true) →
      (∀ p m', p ∈ pkgs.map Package.manifest_path → fsGet w.fs p = some m' →
        ∀ s ∈ m'.sections, ∀ kv ∈ s.2, kv.1 ≠ x) →
      (update_workspace_manifests env w mp sel pre).2.2 = none) := by
  constructor
  · intro env w mp sel pre m x hx habs hopen hok hw
    have hne : sel.isEmpty = false := by
      cases sel with
      | nil => cases hx
      | cons a l => rfl
    exact update_manifest_ok env w mp sel pre m hopen
      (fun s hs kv hkv hf =>
        hok kv.1 (mem_of_upgradeFilter sel kv.1 kv.2 hne hf)) hw
  · intro env w mp sel pre pkgs x hx hmeta hok hman habs
    have hne : sel.isEmpty = false := by
      cases sel with
      | nil => cases hx
      | cons a l => rfl
    have hok2 := get_specified_isOk env pre sel [] hok
    rcases hgs : get_specified_new_deps env pre sel [] with ⟨tr, r⟩
    cases r with
    | error e => rw [hgs] at hok2; simp [isOkB] at hok2
    | ok c =>
      have hpres : ∀ n v, upgradeFilter sel n v = true → (cacheGet c n).isSome = true :=
        fun n v hf => get_specified_domain env pre sel [] tr c hgs n
          (Or.inl (mem_of_upgradeFilter sel n v hne hf))
      have hloop := wsLoop_ok env sel c hpres (pkgs.map Package.manifest_path) w hman
      unfold update_workspace_manifests
      simp only [hne, Bool.not_false, if_true, hgs, get_workspace_manifests, hmeta]
      simpa using hloop

/-- Witness for C9: selecting the absent name `x` over `m1` (which only
declares `foo`) still succeeds. -/
theorem c9_witness :
    (update_manifest env1 w1 none ["x"] false).2.2 = none :=
  c9_absent_selector_name.1 env1 w1 none ["x"] false m1 "x" (by decide) (by decide) rfl
    (by decide) rfl

/-! ### C3 : exactly the filtered entries are updated -/

/-- Whether some entry of the (snapshot) table carries this key and passes
the selector-and-eligibility filter. -/
def entryHasMatch (sel : List String) (es : List (String × Toml)) (k : String) : Bool :=
  es.any (fun e => e.1 == k && upgradeFilter sel e.1 e.2)

/-- The effect of one table traversal on a single entry: rewritten to the
registry's latest version when some snapshot entry with this key passed
the filter, untouched otherwise. -/
def entryF (env : Env) (pre : Bool) (sel : List String) (es : List (String × Toml))
    (kv : String × Toml) : String × Toml :=
  if entryHasMatch sel es kv.1 then
    match env.registry kv.1 pre with
    | .ok d => (kv.1, Toml.scalar d.version)
    | .error _ => kv
  else kv

/-- The effect of one table traversal on a whole section. -/
def sectionF (env : Env) (pre : Bool) (sel : List String) (tp : String)
    (es : List (String × Toml)) (s : String × List (String × Toml)) :
    String × List (String × Toml) :=
  if s.1 = tp then (s.1, s.2.map (entryF env pre sel es)) else s

/-- The accumulated effect of traversing a list of snapshot sections. -/
def secsF (env : Env) (pre : Bool) (sel : List String) :
    List (String × List (String × Toml)) → (String × List (String × Toml)) →
    String × List (String × Toml)
  | [], s => s
  | (tp, es) :: rest, s => secsF env pre sel rest (sectionF env pre sel tp es s)

theorem sectionF_nil (env : Env) (pre : Bool) (sel : List String) (tp : String)
    (s : String × List (String × Toml)) : sectionF env pre sel tp [] s = s := by
  unfold sectionF
  by_cases hs : s.1 = tp
  · rw [if_pos hs]
    have h1 : s.2.map (entryF env pre sel []) = s.2 := by
      rw [List.map_congr_left (fun kv _ => show entryF env pre sel [] kv = kv from rfl)]
      exact List.map_id _
    rw [h1]
  · rw [if_neg hs]

theorem entryF_step (env : Env) (pre : Bool) (sel : List String) (n : String) (v : Toml)
    (d : Dependency) (hd : env.registry n pre = .ok d) (hdn : d.name = n)
    (hf : upgradeFilter sel n v = true) (rest : List (String × Toml))
    (kv : String × Toml) :
    entryF env pre sel rest
      (if kv.1 = d.name then (kv.1, Toml.scalar d.version) else kv)
      = entryF env pre sel ((n, v) :: rest) kv := by
  obtain ⟨k, val⟩ := kv
  by_cases hk : k = n
  · subst hk
    rw [show ((k, val) : String × Toml).1 = k from rfl, if_pos (by rw [hdn])]
    unfold entryF
    have hmatch : entryHasMatch sel ((k, v) :: rest) k = true := by
      simp [entryHasMatch, hf]
    rw [show ((k, val) : String × Toml).1 = k from rfl, hmatch, if_pos rfl, hd]
    cases hm2 : entryHasMatch sel rest k <;> simp [hm2]
  · rw [show ((k, val) : String × Toml).1 = k from rfl,
      if_neg (fun he => hk (he.trans hdn))]
    unfold entryF
    have hnk : (n == k) = false := beq_eq_false_iff_ne.mpr (Ne.symm hk)
    have : entryHasMatch sel ((n, v) :: rest) k = entryHasMatch sel rest k := by
      simp [entryHasMatch, hnk]
    rw [show ((k, val) : String × Toml).1 = k from rfl, this]

theorem entryF_skip (env : Env) (pre : Bool) (sel : List String) (n : String) (v : Toml)
    (hf : upgradeFilter sel n v = false) (rest : List (String × Toml))
    (kv : String × Toml) :
    entryF env pre sel rest kv = entryF env pre sel ((n, v) :: rest) kv := by
  unfold entryF
  have : entryHasMatch sel ((n, v) :: rest) kv.1 = entryHasMatch sel rest kv.1 := by
    simp [entryHasMatch, hf]
  rw [this]

theorem sectionF_step (env : Env) (pre : Bool) (sel : List String) (tp : String)
    (n : String) (v : Toml) (d : Dependency) (hd : env.registry n pre = .ok d)
    (hdn : d.name = n) (hf : upgradeFilter sel n v = true)
    (rest : List (String × Toml)) (s : String × List (String × Toml)) :
    sectionF env pre sel tp rest
      (if s.1 = tp then
        (s.1, s.2.map (fun kv =>
          if kv.1 = d.name then (kv.1, Toml.scalar d.version) else kv))
      else s)
    = sectionF env pre sel tp ((n, v) :: rest) s := by
  by_cases hs : s.1 = tp
  · rw [if_pos hs]
    unfold sectionF
    rw [if_pos hs]
    rw [show ((s.1, s.2.map (fun kv =>
        if kv.1 = d.name then (kv.1, Toml.scalar d.version) else kv)) :
        String × List (String × Toml)).1 = s.1 from rfl]
    rw [if_pos hs]
    refine congrArg (Prod.mk s.1) ?_
    rw [show ((s.1, s.2.map (fun kv =>
        if kv.1 = d.name then (kv.1, Toml.scalar d.version) else kv)) :
        String × List (String × Toml)).2 = s.2.map (fun kv =>
        if kv.1 = d.name then (kv.1, Toml.scalar d.version) else kv) from rfl]
    rw [List.map_map]
    apply List.map_congr_left
    intro kv hkv
    exact entryF_step env pre sel n v d hd hdn hf rest kv
  · rw [if_neg hs]
    unfold sectionF
    rw [if_neg hs, if_neg hs]

theorem sectionF_skip (env : Env) (pre : Bool) (sel : List String) (tp : String)
    (n : String) (v : Toml) (hf : upgradeFilter sel n v = false)
    (rest : List (String × Toml)) (s : String × List (String × Toml)) :
    sectionF env pre sel tp rest s = sectionF env pre sel tp ((n, v) :: rest) s := by
  unfold sectionF
  by_cases hs : s.1 = tp
  · rw [if_pos hs, if_pos hs]
    refine congrArg (Prod.mk s.1) ?_
    exact List.map_congr_left (fun kv _ => entryF_skip env pre sel n v hf rest kv)
  · rw [if_neg hs, if_neg hs]

theorem processTable_char (env : Env) (pre : Bool) (sel : List String) (tp : String)
    (hname : ∀ n d, env.registry n pre = .ok d → d.name = n) :
    ∀ (es : List (String × Toml)) (m : Manifest),
    (∀ kv ∈ es, upgradeFilter sel kv.1 kv.2 = true → isOkB (env.registry kv.1 pre) = true) →
    (processTable env pre sel tp es m).2 =
      .ok ⟨m.sections.map (sectionF env pre sel tp es)⟩ := by
  intro es
  induction es with
  | nil =>
    intro m h
    have h2 : m.sections.map (sectionF env pre sel tp []) = m.sections := by
      rw [List.map_congr_left (fun s _ => sectionF_nil env pre sel tp s)]
      exact List.map_id _
    simp only [processTable, h2]
  | cons nv rest ih =>
    intro m h
    obtain ⟨n, v⟩ := nv
    by_cases hf : upgradeFilter sel n v = true
    · cases hreg : env.registry n pre with
      | error e =>
        have := h (n, v) (List.mem_cons_self _ _) hf
        simp [isOkB, hreg] at this
      | ok d =>
        simp only [processTable, hf, if_true, hreg]
        rw [ih (m.update_table_entry tp d) (fun kv hm => h kv (List.mem_cons_of_mem _ hm))]
        have hdn := hname n d hreg
        rw [show (m.update_table_entry tp d).sections = m.sections.map
            (fun sec => if sec.1 = tp then
              (sec.1, sec.2.map (fun kv =>
                if kv.1 = d.name then (kv.1, Toml.scalar d.version) else kv))
            else sec) from rfl]
        rw [List.map_map]
        refine congrArg (fun l => Except.ok (Manifest.mk l)) ?_
        apply List.map_congr_left
        intro s hs
        exact sectionF_step env pre sel tp n v d hreg hdn hf rest s
    · rw [Bool.not_eq_true] at hf
      simp only [processTable, hf, Bool.false_eq_true, if_false]
      rw [ih m (fun kv hm => h kv (List.mem_cons_of_mem _ hm))]
      refine congrArg (fun l => Except.ok (Manifest.mk l)) ?_
      apply List.map_congr_left
      intro s hs
      exact sectionF_skip env pre sel tp n v hf rest s

theorem processSections_char (env : Env) (pre : Bool) (sel : List String)
    (hname : ∀ n d, env.registry n pre = .ok d → d.name = n) :
    ∀ (secs : List (String × List (String × Toml))) (m : Manifest),
    (∀ s ∈ secs, ∀ kv ∈ s.2, upgradeFilter sel kv.1 kv.2 = true →
      isOkB (env.registry kv.1 pre) = true) →
    (processSections env pre sel secs m).2 =
      .ok ⟨m.sections.map (secsF env pre sel secs)⟩ := by
  intro secs
  induction secs with
  | nil =>
    intro m h
    have h2 : m.sections.map (secsF env pre sel []) = m.sections := by
      rw [List.map_congr_left (fun s _ => show secsF env pre sel [] s = s from rfl)]
      exact List.map_id _
    simp only [processSections, h2]
  | cons sec rest ih =>
    intro m h
    obtain ⟨tp, es⟩ := sec
    have hpt := processTable_char env pre sel tp hname es m
      (fun kv hm => h (tp, es) (List.mem_cons_self _ _) kv hm)
    rcases hps : processTable env pre sel tp es m with ⟨tr, r⟩
    rw [hps] at hpt
    cases r with
    | error e => cases hpt
    | ok m2 =>
      have hm2 : m2 = ⟨m.sections.map (sectionF env pre sel tp es)⟩ := by
        cases hpt
        rfl
      subst hm2
      simp only [processSections, hps]
      rw [ih ⟨m.sections.map (sectionF env pre sel tp es)⟩
        (fun s hm => h s (List.mem_cons_of_mem _ hm))]
      rw [show (Manifest.mk (m.sections.map (sectionF env pre sel tp es))).sections =
        m.sections.map (sectionF env pre sel tp es) from rfl]
      rw [List.map_map]
      refine congrArg (fun l => Except.ok (Manifest.mk l)) ?_
      apply List.map_congr_left
      intro s hs
      rfl

theorem nodupKeys_mem_unique {β : Type} :
    ∀ (l : List (String × β)), (l.map Prod.fst).Nodup →
    ∀ p q, p ∈ l → q ∈ l → p.1 = q.1 → p = q := by
  intro l
  induction l with
  | nil => intro h p q hp; cases hp
  | cons e rest ih =>
    intro h p q hp hq hpq
    rw [List.map_cons, List.nodup_cons] at h
    rcases List.mem_cons.mp hp with hp | hp <;> rcases List.mem_cons.mp hq with hq | hq
    · rw [hp, hq]
    · exfalso
      apply h.1
      rw [show e.1 = q.1 from by rw [← hp]; exact hpq]
      exact List.mem_map.mpr ⟨q, hq, rfl⟩
    · exfalso
      apply h.1
      rw [show e.1 = p.1 from by rw [← hq]; exact hpq.symm]
      exact List.mem_map.mpr ⟨p, hp, rfl⟩
    · exact ih h.2 p q hp hq hpq

theorem entryHasMatch_of_nodup (sel : List String) (es : List (String × Toml))
    (hnd : (es.map Prod.fst).Nodup) (kv : String × Toml) (hkv : kv ∈ es) :
    entryHasMatch sel es kv.1 = upgradeFilter sel kv.1 kv.2 := by
  cases hf : upgradeFilter sel kv.1 kv.2 with
  | true =>
    apply List.any_eq_true.mpr
    refine ⟨kv, hkv, ?_⟩
    simp [hf]
  | false =>
    apply List.any_eq_false.mpr
    intro e he
    by_cases hek : e.1 = kv.1
    · have : e = kv := nodupKeys_mem_unique es hnd e kv he hkv hek
      subst this
      simp [hf]
    · have : (e.1 == kv.1) = false := beq_eq_false_iff_ne.mpr hek
      simp [this]

theorem entryF_of_nodupKeys (env : Env) (pre : Bool) (sel : List String)
    (es : List (String × Toml)) (hnd : (es.map Prod.fst).Nodup)
    (kv : String × Toml) (hkv : kv ∈ es) :
    entryF env pre sel es kv =
      (if upgradeFilter sel kv.1 kv.2 then
        match env.registry kv.1 pre with
        | .ok d => (kv.1, Toml.scalar d.version)
        | .error _ => kv
      else kv) := by
  unfold entryF
  rw [entryHasMatch_of_nodup sel es hnd kv hkv]

theorem secsF_not_mem (env : Env) (pre : Bool) (sel : List String) :
    ∀ (secs : List (String × List (String × Toml))) (s : String × List (String × Toml)),
    s.1 ∉ secs.map Prod.fst → secsF env pre sel secs s = s := by
  intro secs
  induction secs with
  | nil => intro s h; rfl
  | cons sec rest ih =>
    intro s h
    obtain ⟨tp, es⟩ := sec
    rw [List.map_cons] at h
    have h1 : s.1 ≠ tp := fun he => h (List.mem_cons.mpr (Or.inl he))
    have h2 : s.1 ∉ rest.map Prod.fst := fun he => h (List.mem_cons.mpr (Or.inr he))
    show secsF env pre sel rest (sectionF env pre sel tp es s) = s
    rw [show sectionF env pre sel tp es s = s from by unfold sectionF; rw [if_neg h1]]
    exact ih s h2

theorem secsF_append (env : Env) (pre : Bool) (sel : List String) :
    ∀ (secs1 secs2 : List (String × List (String × Toml)))
    (s : String × List (String × Toml)),
    s.1 ∉ secs1.map Prod.fst →
    secsF env pre sel (secs1 ++ secs2) s = secsF env pre sel secs2 s := by
  intro secs1
  induction secs1 with
  | nil => intro secs2 s h; rfl
  | cons sec rest ih =>
    intro secs2 s h
    obtain ⟨tp, es⟩ := sec
    rw [List.map_cons] at h
    have h1 : s.1 ≠ tp := fun he => h (List.mem_cons.mpr (Or.inl he))
    have h2 : s.1 ∉ rest.map Prod.fst := fun he => h (List.mem_cons.mpr (Or.inr he))
    show secsF env pre sel (rest ++ secs2) (sectionF env pre sel tp es s) = _
    rw [show sectionF env pre sel tp es s = s from by unfold sectionF; rw [if_neg h1]]
    exact ih secs2 s h2

theorem secsF_self (env : Env) (pre : Bool) (sel : List String)
    (secs : List (String × List (String × Toml)))
    (hpaths : (secs.map Prod.fst).Nodup)
    (s : String × List (String × Toml)) (hs : s ∈ secs)
    (hkeys : (s.2.map Prod.fst).Nodup) :
    secsF env pre sel secs s =
      (s.1, s.2.map (fun kv =>
        if upgradeFilter sel kv.1 kv.2 then
          match env.registry kv.1 pre with
          | .ok d => (kv.1, Toml.scalar d.version)
          | .error _ => kv
        else kv)) := by
  obtain ⟨l1, l2, hsplit⟩ := List.append_of_mem hs
  subst hsplit
  rw [List.map_append, List.map_cons, List.nodup_append] at hpaths
  obtain ⟨h1, h2, h3⟩ := hpaths
  have hnotin1 : s.1 ∉ l1.map Prod.fst := fun hmem => (h3 hmem) (List.mem_cons_self _ _)
  have hnotin2 : s.1 ∉ l2.map Prod.fst := (List.nodup_cons.mp h2).1
  rw [secsF_append env pre sel l1 _ s hnotin1]
  show secsF env pre sel l2 (sectionF env pre sel s.1 s.2 s) = _
  rw [show sectionF env pre sel s.1 s.2 s = (s.1, s.2.map (entryF env pre sel s.2)) from
    by unfold sectionF; rw [if_pos rfl]]
  rw [secsF_not_mem env pre sel l2 (s.1, s.2.map (entryF env pre sel s.2)) hnotin2]
  refine congrArg (Prod.mk s.1) ?_
  apply List.map_congr_left
  intro kv hkv
  exact entryF_of_nodupKeys env pre sel s.2 hkeys kv hkv

/-- The registry view of a precomputed cache: looking a name up in the
cache, with the absent-key internal-consistency fault as the error case.
Used to transport the direct-traversal characterization to the cached
traversal. -/
def envOfCache (env : Env) (c : Cache) : Env :=
  { env with registry := fun n _ =>
      match cacheGet c n with
      | some d => .ok d
      | none => .error "no entry found for key" }

theorem processTableCache_bridge (env : Env) (c : Cache) (pre : Bool) (sel : List String)
    (tp : String) : ∀ (es : List (String × Toml)) (m : Manifest),
    processTableCache sel c tp es m =
      (processTable (envOfCache env c) pre sel tp es m).2 := by
  intro es
  induction es with
  | nil => intro m; rfl
  | cons nv rest ih =>
    intro m
    obtain ⟨n, v⟩ := nv
    by_cases hf : upgradeFilter sel n v = true
    · cases hcg : cacheGet c n with
      | none =>
        have hreg : (envOfCache env c).registry n pre =
            Except.error "no entry found for key" := by
          simp [envOfCache, hcg]
        simp only [processTableCache, processTable, hf, if_true, hreg, hcg]
      | some d =>
        have hreg : (envOfCache env c).registry n pre = Except.ok d := by
          simp [envOfCache, hcg]
        simp only [processTableCache, processTable, hf, if_true, hreg, hcg]
        exact ih _
    · rw [Bool.not_eq_true] at hf
      simp only [processTableCache, processTable, hf, Bool.false_eq_true, if_false]
      exact ih m

theorem processSectionsCache_bridge (env : Env) (c : Cache) (pre : Bool)
    (sel : List String) : ∀ (secs : List (String × List (String × Toml))) (m : Manifest),
    processSectionsCache sel c secs m =
      (processSections (envOfCache env c) pre sel secs m).2 := by
  intro secs
  induction secs with
  | nil => intro m; rfl
  | cons sec rest ih =>
    intro m
    obtain ⟨tp, es⟩ := sec
    have hb := processTableCache_bridge env c pre sel tp es m
    rcases hpt : processTable (envOfCache env c) pre sel tp es m with ⟨tr, r⟩
    rw [hpt] at hb
    cases r with
    | error e => simp [processSectionsCache, processSections, hb, hpt]
    | ok m2 =>
      simp only [processSectionsCache, processSections, hb, hpt]
      exact ih m2

/-- C3: a successful run of either updater writes back exactly the
entry-wise selector update: an entry is rewritten to the resolved latest
version iff it passes the selector-and-eligibility filter (empty selector
admitting every name, non-empty selector admitting exactly its members),
and every other entry and all section structure is unchanged.  Stated for
manifests whose section paths and per-section entry names are duplicate
free, as in well-formed TOML. -/
theorem c3_selector_exactness :
    (∀ (env : Env) (w : World) (mp : Option String) (sel : List String) (pre : Bool)
      (m : Manifest),
      (∀ n d, env.registry n pre = .ok d → d.name = n) →
      fsGet w.fs (find_file mp) = some m →
      (m.sections.map Prod.fst).Nodup →
      (∀ s ∈ m.sections, (s.2.map Prod.fst).Nodup) →
      (∀ s ∈ m.sections, ∀ kv ∈ s.2, upgradeFilter sel kv.1 kv.2 = true →
        isOkB (env.registry kv.1 pre) = true) →
      env.writeOk (find_file mp) = true →
      (update_manifest env w mp sel pre).2 =
        (writeF w (find_file mp) ⟨m.sections.map (fun s =>
          (s.1, s.2.map (fun kv =>
            if upgradeFilter sel kv.1 kv.2 then
              match env.registry kv.1 pre with
              | .ok d => (kv.1, Toml.scalar d.version)
              | .error _ => kv
            else kv)))⟩, none)) ∧
    (∀ (env : Env) (w : World) (mp : Option String) (sel : List String) (c : Cache)
      (m : Manifest),
      (∀ n d, cacheGet c n = some d → d.name = n) →
      fsGet w.fs (find_file mp) = some m →
      (m.sections.map Prod.fst).Nodup →
      (∀ s ∈ m.sections, (s.2.map Prod.fst).Nodup) →
      (∀ s ∈ m.sections, ∀ kv ∈ s.2, upgradeFilter sel kv.1 kv.2 = true →
        (cacheGet c kv.1).isSome = true) →
      env.writeOk (find_file mp) = true →
      update_manifest_from_cache env w mp sel c =
        (writeF w (find_file mp) ⟨m.sections.map (fun s =>
          (s.1, s.2.map (fun kv =>
            if upgradeFilter sel kv.1 kv.2 then
              match cacheGet c kv.1 with
              | some d => (kv.1, Toml.scalar d.version)
              | none => kv
            else kv)))⟩, none)) := by
  constructor
  · intro env w mp sel pre m hname hopen hpaths hkeys hok hw
    have hchar := processSections_char env pre sel hname m.sections m hok
    have hred : m.sections.map (secsF env pre sel m.sections) =
        m.sections.map (fun s => (s.1, s.2.map (fun kv =>
          if upgradeFilter sel kv.1 kv.2 then
            match env.registry kv.1 pre with
            | .ok d => (kv.1, Toml.scalar d.version)
            | .error _ => kv
          else kv))) := by
      apply List.map_congr_left
      intro s hs
      exact secsF_self env pre sel m.sections hpaths s hs (hkeys s hs)
    rcases hps : processSections env pre sel m.sections m with ⟨tr, r⟩
    rw [hps] at hchar
    cases r with
    | error e => cases hchar
    | ok m2 =>
      have hm2 : m2 = ⟨m.sections.map (secsF env pre sel m.sections)⟩ := by
        cases hchar; rfl
      subst hm2
      simp only [update_manifest, Manifest.get_sections, hopen, hps, hw, if_true]
      rw [hred]
  · intro env w mp sel c m hname hopen hpaths hkeys hpres hw
    have hname2 : ∀ n d, (envOfCache env c).registry n false = .ok d → d.name = n := by
      intro n d h
      cases hcg : cacheGet c n with
      | none =>
        rw [show (envOfCache env c).registry n false =
            Except.error "no entry found for key" from by simp [envOfCache, hcg]] at h
        cases h
      | some d2 =>
        rw [show (envOfCache env c).registry n false = Except.ok d2 from by
          simp [envOfCache, hcg]] at h
        cases h
        exact hname n _ hcg
    have hok2 : ∀ s ∈ m.sections, ∀ kv ∈ s.2, upgradeFilter sel kv.1 kv.2 = true →
        isOkB ((envOfCache env c).registry kv.1 false) = true := by
      intro s hs kv hkv hf
      have hps := hpres s hs kv hkv hf
      cases hcg : cacheGet c kv.1 with
      | none => rw [hcg] at hps; cases hps
      | some d =>
        rw [show (envOfCache env c).registry kv.1 false = Except.ok d from by
          simp [envOfCache, hcg]]
        rfl
    have hchar := processSections_char (envOfCache env c) false sel hname2 m.sections m hok2
    have hb := processSectionsCache_bridge env c false sel m.sections m
    have hred : m.sections.map (secsF (envOfCache env c) false sel m.sections) =
        m.sections.map (fun s => (s.1, s.2.map (fun kv =>
          if upgradeFilter sel kv.1 kv.2 then
            match cacheGet c kv.1 with
            | some d => (kv.1, Toml.scalar d.version)
            | none => kv
          else kv))) := by
      apply List.map_congr_left
      intro s hs
      rw [secsF_self (envOfCache env c) false sel m.sections hpaths s hs (hkeys s hs)]
      refine congrArg (Prod.mk s.1) ?_
      apply List.map_congr_left
      intro kv hkv
      by_cases hf : upgradeFilter sel kv.1 kv.2 = true
      · rw [if_pos hf, if_pos hf]
        cases hcg : cacheGet c kv.1 with
        | none =>
          rw [show (envOfCache env c).registry kv.1 false =
            Except.error "no entry found for key" from by simp [envOfCache, hcg]]
        | some d =>
          rw [show (envOfCache env c).registry kv.1 false = Except.ok d from by
            simp [envOfCache, hcg]]
      · rw [if_neg hf, if_neg hf]
    rcases hps : processSections (envOfCache env c) false sel m.sections m with ⟨tr, r⟩
    rw [hps] at hchar
    rw [hps] at hb
    cases r with
    | error e => cases hchar
    | ok m2 =>
      have hm2 : m2 = ⟨m.sections.map (secsF (envOfCache env c) false sel m.sections)⟩ := by
        cases hchar; rfl
      subst hm2
      simp only [update_manifest_from_cache, Manifest.get_sections, hopen, hb, hw, if_true]
      rw [hred]

/-- Witness for C3 at the concrete manifest `m1` with selector `foo`. -/
theorem c3_witness :
    (update_manifest env1 w1 none ["foo"] false).2 =
      (writeF w1 (find_file none) ⟨m1.sections.map (fun s =>
        (s.1, s.2.map (fun kv =>
          if upgradeFilter ["foo"] kv.1 kv.2 then
            match env1.registry kv.1 false with
            | .ok d => (kv.1, Toml.scalar d.version)
            | .error _ => kv
          else kv)))⟩, none) :=
  c3_selector_exactness.1 env1 w1 none ["foo"] false m1
    (fun n d h => by cases h; rfl) rfl (by decide) (by decide) (by decide) rfl
